import Mathlib

/-!
Verification development for the PO_TesserXtract repository: a Flask service
(`Code2.py`, with `Code1.py` an earlier duplicate variant) that runs OCR over
uploaded document images and extracts named fields with regular expressions.

Text is modelled as lists of Unicode codepoints (`List Nat`); images as
matrices of BGR pixel triples, exactly as `cv2.imread` delivers them.  The
regular-expression engine below implements the only constructs the
configured rule set uses: case-insensitive literals, greedy `\s*`, and one
trailing capture group of the shape `(class+)`, with Python's leftmost
search and greedy backtracking semantics.
-/

set_option maxHeartbeats 1000000

deriving instance DecidableEq for Except

namespace TesserXtract

/-- Codepoints of a string literal (the model of Python `str` values). -/
def strN (s : String) : List Nat := s.toList.map Char.toNat

/-- ASCII lowering, the effect of `re.IGNORECASE` / `str.lower()` on the
ASCII characters appearing in the configured patterns. -/
def lowerN (n : Nat) : Nat := if 65 ≤ n ∧ n ≤ 90 then n + 32 else n

/-- Python regex `\d`. -/
def isDigitN (n : Nat) : Bool := decide (48 ≤ n ∧ n ≤ 57)

/-- Python regex `\s` (ASCII part): space, tab, newline, CR, FF, VT. -/
def isSpaceN (n : Nat) : Bool :=
  decide (n = 32 ∨ n = 9 ∨ n = 10 ∨ n = 13 ∨ n = 12 ∨ n = 11)

/-- Character class `[A-Za-z]`. -/
def isAlphaN (n : Nat) : Bool := decide ((65 ≤ n ∧ n ≤ 90) ∨ (97 ≤ n ∧ n ≤ 122))

/-- Character class `[%A-Za-z\s,]` (patterns 2 and 4 of `Code2.py`). -/
def clsTech (n : Nat) : Bool := isAlphaN n || isSpaceN n || decide (n = 37 ∨ n = 44)

/-- Character class `[%A-Za-z\s,\d]` (pattern 5 of `Code2.py`). -/
def clsDeliv (n : Nat) : Bool := clsTech n || isDigitN n

/-- A token of the pattern part preceding the capture group: a literal
(compared case-insensitively, as all searches pass `re.IGNORECASE`) or a
greedy Kleene star over a one-character class (only `\s*` occurs). -/
inductive Tok where
  | lit : List Nat → Tok
  | star : (Nat → Bool) → Tok

/-- One entry of the `patterns` dict of `Code2.py`: a field name and a
pattern `pre (cls+)`; `grp = none` models a pattern without any capture
group (used to examine rule-set validation behaviour). -/
structure RulePat where
  name : String
  pre : List Tok
  grp : Option (Nat → Bool)

/-- Length of the maximal prefix of `cs` inside class `cls`. -/
def runLen (cls : Nat → Bool) : List Nat → Nat
  | [] => 0
  | c :: cs => if cls c then runLen cls cs + 1 else 0

/-- Case-insensitive literal match: consume `l` from the front of `cs`. -/
def dropLitCI : List Nat → List Nat → Option (List Nat)
  | [], cs => some cs
  | _ :: _, [] => none
  | p :: ps, c :: cs => if lowerN p == lowerN c then dropLitCI ps cs else none

/-- All remainders of `cs` after matching the token sequence `ts`, in
Python's backtracking priority order (greedy stars try longest first). -/
def matchPre : List Tok → List Nat → List (List Nat)
  | [], cs => [cs]
  | .lit l :: ts, cs =>
    match dropLitCI l cs with
    | some cs' => matchPre ts cs'
    | none => []
  | .star cls :: ts, cs =>
    ((List.range (runLen cls cs + 1)).reverse).flatMap fun k => matchPre ts (cs.drop k)

/-- Whether the greedy capture group `(cls+)` can start on remainder `rem`:
it needs at least one class character. -/
def grpViable (cls : Nat → Bool) (rem : List Nat) : Bool := decide (runLen cls rem ≠ 0)

/-- Try to match rule `r` at the start of `cs`.  `some g` means the whole
pattern matches here; `g` is `group(1)` (`none` when the pattern has no
capture group, in which case `match.group(1)` would raise `IndexError`).
The capture group `(cls+)` is greedy and is the final pattern element, so it
takes the maximal nonempty class run of the first viable remainder. -/
def matchAt (r : RulePat) (cs : List Nat) : Option (Option (List Nat)) :=
  match r.grp with
  | none => if (matchPre r.pre cs).isEmpty then none else some none
  | some cls =>
    match (matchPre r.pre cs).find? (grpViable cls) with
    | none => none
    | some rem => some (some (rem.take (runLen cls rem)))

/-- Python `re.search`: scan left to right for the first position where the
pattern matches; report that position and `group(1)` there. -/
def reSearch (r : RulePat) : List Nat → Option (Nat × Option (List Nat))
  | [] => (matchAt r []).map fun g => (0, g)
  | c :: cs =>
    match matchAt r (c :: cs) with
    | some g => some (0, g)
    | none => (reSearch r cs).map fun p => (p.1 + 1, p.2)

/-- Python `re.sub(r'\s+', ' ', text)`: collapse every whitespace run to one space. -/
def collapseWS : List Nat → List Nat
  | [] => []
  | [c] => if isSpaceN c then [32] else [c]
  | c :: d :: cs =>
    if isSpaceN c && isSpaceN d then collapseWS (d :: cs)
    else (if isSpaceN c then 32 else c) :: collapseWS (d :: cs)

/-- Python `str.strip()` (whitespace at both ends removed). -/
def stripN (cs : List Nat) : List Nat :=
  ((cs.dropWhile isSpaceN).reverse.dropWhile isSpaceN).reverse

/-- Function `clean_text` of `Code2.py` line 105-107: collapse runs of whitespace to
single spaces, then strip. -/
def clean_text (cs : List Nat) : List Nat := stripN (collapseWS cs)

/-- The seven entries of the `patterns` dict (`Code2.py` lines 85-93). -/
def prRule : RulePat := ⟨"PR Number", [.lit (strN "PR Number"), .star isSpaceN], some isDigitN⟩

def techRule : RulePat :=
  ⟨"Technical Specifications", [.lit (strN "Technical Specifications"), .star isSpaceN], some clsTech⟩

def vnameRule : RulePat := ⟨"Vendor Name", [.lit (strN "Vendor Name"), .star isSpaceN], some isAlphaN⟩

def vpayRule : RulePat :=
  ⟨"Vendor Payment Terms", [.lit (strN "Vendor Payment Terms"), .star isSpaceN], some clsTech⟩

def vdelivRule : RulePat :=
  ⟨"Vendor Delivery Terms", [.lit (strN "Vendor Delivery Terms"), .star isSpaceN], some clsDeliv⟩

def costRule : RulePat := ⟨"Cost Estimate", [.lit (strN "Cost Estimate"), .star isSpaceN], some isDigitN⟩

def budgetRule : RulePat :=
  ⟨"Budget Allocated", [.lit (strN "Budget Allocated"), .star isSpaceN], some isDigitN⟩

def patternsList : List RulePat :=
  [prRule, techRule, vnameRule, vpayRule, vdelivRule, costRule, budgetRule]

/-- Python exceptions that can escape the worker in `process_file`:
`cv2.cvtColor` raising on a `None` image (`cv2.imread` failed), and
`match.group(1)` raising `IndexError` on a pattern without a group 1. -/
inductive PyErr where
  | cvtColorError
  | indexError
deriving DecidableEq

/-- The second component of `process_file`'s return value: either the
string `'Not an Invoice Image'` or the dict of extracted fields. -/
inductive Outcome where
  | notInvoice
  | fields (m : List (String × List Nat))
deriving DecidableEq

/-- Python dict assignment `d[k] = v`: overwrite in place when the key is
present, append otherwise. -/
def dictUpd {α : Type} (k : String) (v : α) (d : List (String × α)) : List (String × α) :=
  if d.any (fun e => e.1 == k) then d.map (fun e => if e.1 == k then (k, v) else e)
  else d ++ [(k, v)]

/-- The extraction loop of `process_file` (`Code2.py` lines 126-129):
for each rule, `re.search(pattern, text, re.IGNORECASE)`; on a match,
`fields[key] = clean_text(match.group(1))`. -/
def extractLoop (text : List Nat) : List RulePat → List (String × List Nat) →
    Except PyErr (List (String × List Nat))
  | [], acc => .ok acc
  | r :: rs, acc =>
    match reSearch r text with
    | none => extractLoop text rs acc
    | some (_, none) => .error .indexError
    | some (_, some cap) => extractLoop text rs (dictUpd r.name (clean_text cap) acc)

def extractFieldsE (rules : List RulePat) (text : List Nat) :
    Except PyErr (List (String × List Nat)) :=
  extractLoop text rules []

/-- The tail of `process_file` (`Code2.py` lines 132-135): an empty fields
dict becomes the sentinel string, a nonempty one is returned as-is. -/
def processText (rules : List RulePat) (text : List Nat) : Except PyErr Outcome :=
  match extractFieldsE rules text with
  | .error e => .error e
  | .ok fields => if fields.isEmpty then .ok .notInvoice else .ok (.fields fields)

/-! ## Image model and preprocessing (`Code2.py` lines 111-120) -/

/-- A decoded image as `cv2.imread` yields it: rows of BGR pixel triples. -/
abbrev Image : Type := List (List (Nat × Nat × Nat))

/-- A single-channel image (output of grayscale conversion / thresholding). -/
abbrev GrayImage : Type := List (List Nat)

/-- OpenCV `COLOR_BGR2GRAY` on 8-bit pixels: fixed-point
`(1868*B + 9617*G + 4899*R + 2^13) >> 14`. -/
def bgr2gray (p : Nat × Nat × Nat) : Nat :=
  (1868 * p.1 + 9617 * p.2.1 + 4899 * p.2.2 + 8192) / 16384

/-- OpenCV `cv2.threshold(gray, thresh, maxval, cv2.THRESH_BINARY_INV)` per pixel:
`0` above the threshold, `maxval` at or below it. -/
def threshBinaryInv (thresh maxval x : Nat) : Nat := if x > thresh then 0 else maxval

/-- The preprocessing of `process_file` (`Code2.py` lines 113-117):
grayscale conversion followed by inverted binarization at threshold 150. -/
def normalizeImage (img : Image) : GrayImage :=
  img.map fun row => row.map fun p => threshBinaryInv 150 255 (bgr2gray p)

/-- Reading a saved single-channel image back with `cv2.imread` replicates
the gray value into the three BGR channels; this is how the output of
`normalizeImage` can re-enter the pipeline as an input image. -/
def grayAsBGR (img : GrayImage) : Image := img.map fun row => row.map fun v => (v, v, v)

instance : DecidableEq (String × Option Image) := instDecidableEqProd

/-! ## Filesystem-facing helpers and the upload handler (`Code2.py` 95-188) -/

/-- Python `os.path.basename`: the part after the last `/`. -/
def basename (p : String) : String :=
  String.mk ((p.toList.reverse.takeWhile fun c => c != '/').reverse)

/-- Python `os.path.join(dir, fn)` for a relative directory without a trailing slash. -/
def joinPath (d fn : String) : String := d ++ "/" ++ fn

/-- Function `process_file` (`Code2.py` lines 109-135).  `fs` maps a path to the
decoded image `cv2.imread` yields there (`none`: missing or undecodable
file, on which `cv2.cvtColor` raises).  `ocr` is the external
`pytesseract.image_to_string` capability, an opaque deterministic stub. -/
def process_file (ocr : GrayImage → List Nat) (rules : List RulePat)
    (fs : String → Option Image) (path : String) : Except PyErr (String × Outcome) :=
  match fs path with
  | none => .error .cvtColorError
  | some img =>
    match processText rules (ocr (normalizeImage img)) with
    | .error e => .error e
    | .ok o => .ok (basename path, o)

def MAX_FILES : Nat := 10

def MAX_CONTENT_LENGTH : Nat := 5 * 1024 * 1024

def UPLOAD_FOLDER : String := "input"

/-- One entry of `request.files.getlist('files[]')`: the client filename,
the reported content length, and the decode result of the stored bytes
(what `cv2.imread` will later return for the saved file). -/
structure UploadedFile where
  filename : String
  contentLength : Nat
  content : Option Image

/-- Lowercased extension: `filename.rsplit('.', 1)[1].lower()` (chars after
the last dot), on the ASCII model. -/
def extLower (s : String) : List Char :=
  ((s.toList.reverse.takeWhile fun c => c != '.').reverse).map fun c =>
    if 65 ≤ c.toNat ∧ c.toNat ≤ 90 then Char.ofNat (c.toNat + 32) else c

def imageExtsL : List (List Char) :=
  (["png", "jpg", "jpeg", "gif", "pdf"]).map String.toList

/-- Function `is_image_file` (`Code2.py` lines 95-97). -/
def is_image_file (filename : String) : Bool :=
  filename.toList.contains '.' && imageExtsL.contains (extLower filename)

/-- Function `generate_unique_filename` (`Code2.py` lines 99-103), with the random
UUID string supplied from outside. -/
def generate_unique_filename (u : String) (filename : String) : String :=
  u ++ "." ++ (if filename.toList.contains '.' then String.mk (extLower filename) else "")

/-- The validation loop of `upload` (`Code2.py` lines 157-162): the first
failing file determines the error message; extension is checked before size. -/
def firstInvalid : List UploadedFile → Option String
  | [] => none
  | f :: rest =>
    if !is_image_file f.filename then some (f.filename ++ " is not an image file")
    else if f.contentLength > MAX_CONTENT_LENGTH then
      some (f.filename ++ " is too large (max size 5MB)")
    else firstInvalid rest

/-- The generated storage filenames, in submission order (`Code2.py` 169-173). -/
def genFilenames (uuids : Nat → String) (files : List UploadedFile) : List String :=
  files.enum.map fun p => generate_unique_filename (uuids p.1) p.2.filename

/-- The upload folder after the save loop: each generated name paired with
the decode result of the bytes written under it. -/
def savedOf (uuids : Nat → String) (files : List UploadedFile) :
    List (String × Option Image) :=
  (genFilenames uuids files).zip (files.map fun f => f.content)

/-- What `cv2.imread` returns for a path under the upload folder; a later
save of the same name overwrites an earlier one. -/
def fsOf (saved : List (String × Option Image)) : String → Option Image :=
  fun p =>
    match saved.reverse.find? (fun e => joinPath UPLOAD_FOLDER e.1 == p) with
    | some e => e.2
    | none => none

/-- Line 178 of `Code2.py`, `fields_list = [result.get() for result in results]`:
collect the per-file results in order; the first re-raised worker exception
aborts the whole comprehension. -/
def collectResults (f : String → Except PyErr (String × Outcome)) :
    List String → Except PyErr (List (String × Outcome))
  | [] => .ok []
  | fn :: rest =>
    match f fn with
    | .error e => .error e
    | .ok r =>
      match collectResults f rest with
      | .error e => .error e
      | .ok rs => .ok (r :: rs)

/-- The response dict built in `Code2.py` lines 183-185:
`response[filenames[i]] = fields_list[i][1]`. -/
def buildResp (pairs : List (String × Outcome)) : List (String × Outcome) :=
  pairs.foldl (fun d p => dictUpd p.1 p.2 d) []

/-- The JSON reply of `upload`: an `{'error': msg}` object or the
`{'fields': response}` object. -/
inductive UploadResult where
  | errorResp (msg : String)
  | fieldsResp (resp : List (String × Outcome))
deriving DecidableEq

/-- Function `upload` (`Code2.py` lines 142-188).  `filesQ = none` models a request
without the `files[]` key.  The first component is the handler's outcome
(`Except.error` = an unhandled Python exception escaping the handler), the
second the contents of the upload folder it leaves behind. -/
def upload (ocr : GrayImage → List Nat) (rules : List RulePat) (uuids : Nat → String)
    (filesQ : Option (List UploadedFile)) :
    Except PyErr UploadResult × List (String × Option Image) :=
  match filesQ with
  | none => (.ok (.errorResp "No files selected for upload"), [])
  | some files =>
    if files.length > MAX_FILES then
      (.ok (.errorResp "Maximum 10 files are allowed at a time"), [])
    else
      match firstInvalid files with
      | some msg => (.ok (.errorResp msg), [])
      | none =>
        let filenames := genFilenames uuids files
        let saved := savedOf uuids files
        match collectResults
            (fun fn => process_file ocr rules (fsOf saved) (joinPath UPLOAD_FOLDER fn))
            filenames with
        | .error e => (.error e, saved)
        | .ok fl => (.ok (.fieldsResp (buildResp (filenames.zip (fl.map Prod.snd)))), saved)

/-! ## Specification-side helpers -/

/-- The value the extraction loop stores for rule `r` on `text`, if any:
the cleaned first capture group of the leftmost match. -/
def matchedValue (r : RulePat) (text : List Nat) : Option (List Nat) :=
  match reSearch r text with
  | some (_, some cap) => some (clean_text cap)
  | _ => none

/-- The fields dict the loop accumulates, rule by rule. -/
def collectFields (rules : List RulePat) (text : List Nat) : List (String × List Nat) :=
  rules.filterMap fun r => (matchedValue r text).map fun v => (r.name, v)

/-! ## Extractor lemmas -/

theorem matchAt_grp_isSome {r : RulePat} (h : r.grp.isSome) {cs : List Nat}
    {g : Option (List Nat)} (hm : matchAt r cs = some g) : g.isSome := by
  rcases Option.isSome_iff_exists.mp h with ⟨cls, hcls⟩
  simp only [matchAt, hcls] at hm
  rcases hfind : (matchPre r.pre cs).find? (grpViable cls) with _ | rem <;>
    rw [hfind] at hm
  · exact absurd hm (by simp)
  · cases hm; rfl

theorem reSearch_grp_isSome {r : RulePat} (h : r.grp.isSome) :
    ∀ (cs : List Nat) (i : Nat) (g : Option (List Nat)),
      reSearch r cs = some (i, g) → g.isSome := by
  intro cs
  induction cs with
  | nil =>
    intro i g hs
    unfold reSearch at hs
    rcases hm : matchAt r [] with _ | g0 <;> rw [hm] at hs
    · exact absurd hs (by simp)
    · simp at hs
      exact hs.2 ▸ matchAt_grp_isSome h hm
  | cons c cs ih =>
    intro i g hs
    unfold reSearch at hs
    rcases hm : matchAt r (c :: cs) with _ | g0 <;> rw [hm] at hs
    · rcases hrec : reSearch r cs with _ | p <;> rw [hrec] at hs
      · exact absurd hs (by simp)
      · simp at hs
        exact hs.2 ▸ ih p.1 p.2 (by rw [hrec])
    · cases hs
      exact matchAt_grp_isSome h hm

theorem lookup_eq_none_of_key_not_mem {α : Type} {k : String} :
    ∀ {l : List (String × α)}, k ∉ l.map Prod.fst → l.lookup k = none := by
  intro l
  induction l with
  | nil => intro _; rfl
  | cons e l ih =>
    intro hk
    obtain ⟨a, b⟩ := e
    simp only [List.map_cons, List.mem_cons] at hk
    push_neg at hk
    have hbeq : (k == a) = false := beq_eq_false_iff_ne.mpr hk.1
    simp only [List.lookup, hbeq]
    exact ih hk.2

theorem collectFields_key_mem {rules : List RulePat} {text : List Nat}
    {e : String × List Nat} (he : e ∈ collectFields rules text) :
    e.1 ∈ rules.map RulePat.name := by
  unfold collectFields at he
  rcases List.mem_filterMap.mp he with ⟨r, hr, hmap⟩
  rcases hv : matchedValue r text with _ | v <;> rw [hv] at hmap
  · exact absurd hmap (by simp)
  · have he2 : e = (r.name, v) := by simpa using hmap.symm
    rw [he2]
    exact List.mem_map_of_mem RulePat.name hr

theorem extractLoop_ok {text : List Nat} :
    ∀ (rules : List RulePat) (acc : List (String × List Nat)),
      (∀ r ∈ rules, r.grp.isSome) →
      (rules.map RulePat.name).Nodup →
      (∀ r ∈ rules, acc.any (fun e => e.1 == r.name) = false) →
      extractLoop text rules acc = .ok (acc ++ collectFields rules text) := by
  intro rules
  induction rules with
  | nil => intro acc _ _ _; simp [extractLoop, collectFields]
  | cons r rs ih =>
    intro acc hgrp hnd hacc
    rw [List.map_cons, List.nodup_cons] at hnd
    rcases hs : reSearch r text with _ | p
    · have hmv : matchedValue r text = none := by unfold matchedValue; rw [hs]
      simp only [extractLoop, hs]
      rw [ih acc (fun a ha => hgrp a (List.mem_cons_of_mem r ha)) hnd.2
        (fun a ha => hacc a (List.mem_cons_of_mem r ha))]
      simp only [collectFields, List.filterMap_cons, hmv, Option.map_none']
    · obtain ⟨i, g⟩ := p
      have hg : g.isSome := reSearch_grp_isSome (hgrp r (List.mem_cons_self r rs)) text i g hs
      rcases Option.isSome_iff_exists.mp hg with ⟨cap, hcap⟩
      subst hcap
      have hmv : matchedValue r text = some (clean_text cap) := by unfold matchedValue; rw [hs]
      simp only [extractLoop, hs]
      have hupd : dictUpd r.name (clean_text cap) acc = acc ++ [(r.name, clean_text cap)] := by
        unfold dictUpd
        rw [if_neg (by rw [hacc r (List.mem_cons_self r rs)]; exact Bool.false_ne_true)]
      rw [hupd]
      rw [ih (acc ++ [(r.name, clean_text cap)])
        (fun a ha => hgrp a (List.mem_cons_of_mem r ha)) hnd.2 ?hk]
      · simp only [collectFields, List.filterMap_cons, hmv, Option.map_some']
        simp
      case hk =>
        intro a ha
        simp only [List.any_append, Bool.or_eq_false_iff]
        refine ⟨hacc a (List.mem_cons_of_mem r ha), ?_⟩
        simp only [List.any_cons, List.any_nil, Bool.or_false, beq_iff_eq]
        exact decide_eq_false fun hEq => hnd.1 (hEq ▸ List.mem_map_of_mem RulePat.name ha)

theorem extractFieldsE_eq {rules : List RulePat} {text : List Nat}
    (hgrp : ∀ r ∈ rules, r.grp.isSome) (hnd : (rules.map RulePat.name).Nodup) :
    extractFieldsE rules text = .ok (collectFields rules text) := by
  unfold extractFieldsE
  rw [extractLoop_ok rules [] hgrp hnd (fun _ _ => rfl)]
  rfl

theorem lookup_collectFields {text : List Nat} :
    ∀ {rules : List RulePat}, (rules.map RulePat.name).Nodup →
      ∀ {r : RulePat}, r ∈ rules →
      (collectFields rules text).lookup r.name = matchedValue r text := by
  intro rules
  induction rules with
  | nil => intro _ r hr; exact absurd hr (List.not_mem_nil r)
  | cons r0 rs ih =>
    intro hnd r hr
    rw [List.map_cons, List.nodup_cons] at hnd
    rcases List.mem_cons.mp hr with hEq | hmem
    · subst hEq
      rcases hv : matchedValue r text with _ | v <;>
        simp only [collectFields, List.filterMap_cons, hv, Option.map_none', Option.map_some']
      · apply lookup_eq_none_of_key_not_mem
        intro hk
        exact hnd.1 (by
          rcases List.mem_map.mp hk with ⟨e, he, hkey⟩
          exact hkey ▸ collectFields_key_mem he)
      · simp [List.lookup, hv]
    · have hne : r.name ≠ r0.name := by
        intro hEq
        exact hnd.1 (hEq ▸ List.mem_map_of_mem RulePat.name hmem)
      have hbeq : (r.name == r0.name) = false := beq_eq_false_iff_ne.mpr hne
      rcases hv : matchedValue r0 text with _ | v <;>
        simp only [collectFields, List.filterMap_cons, hv, Option.map_none', Option.map_some']
      · exact ih hnd.2 hmem
      · simp only [List.lookup, hbeq]
        exact ih hnd.2 hmem

/-! ## Case-insensitivity: lowering the text never changes where a rule matches -/

/-- A character class unaffected by ASCII lowering of its input. -/
def ClsInv (cls : Nat → Bool) : Prop := ∀ n, cls (lowerN n) = cls n

/-- Tokens whose matching is invariant under lowering of the text. -/
def TokCI : Tok → Prop
  | .lit _ => True
  | .star cls => ClsInv cls

theorem lowerN_idem (n : Nat) : lowerN (lowerN n) = lowerN n := by
  unfold lowerN
  split
  · rw [if_neg (by omega)]
  · rfl

theorem isDigitN_inv : ClsInv isDigitN := by
  intro n
  unfold isDigitN lowerN
  split <;> rw [decide_eq_decide] <;> omega

theorem isSpaceN_inv : ClsInv isSpaceN := by
  intro n
  unfold isSpaceN lowerN
  split <;> rw [decide_eq_decide] <;> omega

theorem isAlphaN_inv : ClsInv isAlphaN := by
  intro n
  unfold isAlphaN lowerN
  split <;> rw [decide_eq_decide] <;> omega

theorem clsTech_inv : ClsInv clsTech := by
  intro n
  unfold clsTech
  rw [isAlphaN_inv n, isSpaceN_inv n]
  have : (decide (lowerN n = 37 ∨ lowerN n = 44)) = (decide (n = 37 ∨ n = 44)) := by
    unfold lowerN
    split <;> rw [decide_eq_decide] <;> omega
  rw [this]

theorem clsDeliv_inv : ClsInv clsDeliv := by
  intro n
  unfold clsDeliv
  rw [clsTech_inv n, isDigitN_inv n]

theorem dropLitCI_lower (l : List Nat) :
    ∀ cs : List Nat, dropLitCI l (cs.map lowerN) = (dropLitCI l cs).map (List.map lowerN) := by
  induction l with
  | nil => intro cs; rfl
  | cons p ps ih =>
    intro cs
    cases cs with
    | nil => rfl
    | cons c cs' =>
      simp only [List.map_cons, dropLitCI, lowerN_idem]
      cases hbeq : lowerN p == lowerN c <;> simp [hbeq, ih cs']

theorem runLen_lower {cls : Nat → Bool} (h : ClsInv cls) :
    ∀ cs : List Nat, runLen cls (cs.map lowerN) = runLen cls cs := by
  intro cs
  induction cs with
  | nil => rfl
  | cons c cs' ih => simp only [List.map_cons, runLen, h c, ih]

theorem matchPre_lower :
    ∀ ts : List Tok, (∀ t ∈ ts, TokCI t) →
      ∀ cs : List Nat, matchPre ts (cs.map lowerN) = (matchPre ts cs).map (List.map lowerN) := by
  intro ts
  induction ts with
  | nil => intro _ cs; rfl
  | cons t ts ih =>
    intro hci cs
    have hts : ∀ t ∈ ts, TokCI t := fun a ha => hci a (List.mem_cons_of_mem t ha)
    cases t with
    | lit l =>
      simp only [matchPre, dropLitCI_lower l cs]
      rcases hdl : dropLitCI l cs with _ | cs' <;> simp [hdl, ih hts]
    | star cls =>
      have hcls : ClsInv cls := hci (.star cls) (List.mem_cons_self _ ts)
      simp only [matchPre, runLen_lower hcls cs, List.map_flatMap]
      have hfun : (fun k => matchPre ts ((cs.map lowerN).drop k)) =
          (fun k => (matchPre ts (cs.drop k)).map (List.map lowerN)) :=
        funext fun k => by rw [← List.map_drop, ih hts]
      rw [hfun]

theorem matchAt_lower {r : RulePat} (hpre : ∀ t ∈ r.pre, TokCI t)
    (hgrp : ∀ cls, r.grp = some cls → ClsInv cls) (cs : List Nat) :
    (matchAt r (cs.map lowerN)).isSome = (matchAt r cs).isSome := by
  cases hg : r.grp with
  | none =>
    simp only [matchAt, hg]
    rw [matchPre_lower r.pre hpre cs]
    cases matchPre r.pre cs <;> simp
  | some cls =>
    have hci := hgrp cls hg
    simp only [matchAt, hg]
    rw [matchPre_lower r.pre hpre cs, List.find?_map]
    have hpred : (grpViable cls ∘ List.map lowerN) = grpViable cls :=
      funext fun rem => by
        simp only [Function.comp_apply, grpViable, runLen_lower hci rem]
    rw [hpred]
    cases (matchPre r.pre cs).find? (grpViable cls) <;> simp

theorem reSearch_lower {r : RulePat} (hpre : ∀ t ∈ r.pre, TokCI t)
    (hgrp : ∀ cls, r.grp = some cls → ClsInv cls) :
    ∀ cs : List Nat,
      (reSearch r (cs.map lowerN)).map Prod.fst = (reSearch r cs).map Prod.fst := by
  intro cs
  induction cs with
  | nil => rfl
  | cons c cs ih =>
    have hAt : (matchAt r (lowerN c :: cs.map lowerN)).isSome = (matchAt r (c :: cs)).isSome := by
      rw [← List.map_cons]
      exact matchAt_lower hpre hgrp (c :: cs)
    simp only [List.map_cons, reSearch]
    cases hm : matchAt r (c :: cs) with
    | some g =>
      rw [hm] at hAt
      rcases Option.isSome_iff_exists.mp (by rw [hAt]; rfl) with ⟨g', hg'⟩
      rw [hg']
      simp
    | none =>
      rw [hm] at hAt
      have hml : matchAt r (lowerN c :: cs.map lowerN) = none := by
        cases hval : matchAt r (lowerN c :: cs.map lowerN)
        · rfl
        · rw [hval] at hAt; exact absurd hAt (by simp)
      rw [hml]
      cases hr1 : reSearch r (cs.map lowerN) <;> cases hr2 : reSearch r cs <;>
        rw [hr1, hr2] at ih <;> simp_all

/-! ## Leftmost-search lemma -/

theorem reSearch_leftmost (r : RulePat) :
    ∀ (cs : List Nat) (i : Nat) (g : Option (List Nat)),
      reSearch r cs = some (i, g) →
      matchAt r (cs.drop i) = some g ∧ ∀ j, j < i → matchAt r (cs.drop j) = none := by
  intro cs
  induction cs with
  | nil =>
    intro i g hs
    unfold reSearch at hs
    rcases hm : matchAt r [] with _ | g0 <;> rw [hm] at hs
    · exact absurd hs (by simp)
    · simp at hs
      obtain ⟨hi, hg⟩ := hs
      subst hi
      subst hg
      exact ⟨by simpa using hm, fun j hj => absurd hj (by omega)⟩
  | cons c cs ih =>
    intro i g hs
    unfold reSearch at hs
    rcases hm : matchAt r (c :: cs) with _ | g0 <;> rw [hm] at hs
    · rcases hrec : reSearch r cs with _ | p <;> rw [hrec] at hs
      · exact absurd hs (by simp)
      · simp at hs
        obtain ⟨hi, hg⟩ := hs
        obtain ⟨hmatch, hnone⟩ := ih p.1 p.2 (by rw [hrec])
        constructor
        · rw [← hi, ← hg]
          simpa using hmatch
        · intro j hj
          match j with
          | 0 => simpa using hm
          | j' + 1 =>
            have : j' < p.1 := by omega
            simpa using hnone j' this
    · cases hs
      exact ⟨by simpa using hm, fun j hj => absurd hj (by omega)⟩

/-! ## Association-list (Python dict) lemmas -/

theorem lookup_mem {α : Type} {k : String} :
    ∀ {l : List (String × α)} {v : α}, l.lookup k = some v → (k, v) ∈ l := by
  intro l
  induction l with
  | nil => intro v h; exact absurd h (by simp [List.lookup])
  | cons e l ih =>
    intro v h
    obtain ⟨a, b⟩ := e
    by_cases hk : k = a
    · subst hk
      simp [List.lookup] at h
      rw [← h]
      exact List.mem_cons_self _ _
    · have hbeq : (k == a) = false := beq_eq_false_iff_ne.mpr hk
      simp only [List.lookup, hbeq] at h
      exact List.mem_cons_of_mem _ (ih h)

theorem dictUpd_mem {α : Type} {k : String} {v : α} {d : List (String × α)}
    {e : String × α} (he : e ∈ dictUpd k v d) : e = (k, v) ∨ e ∈ d := by
  unfold dictUpd at he
  split at he
  · rcases List.mem_map.mp he with ⟨e0, he0, hEq⟩
    by_cases h0 : e0.1 = k
    · left
      rw [← hEq]
      simp [h0]
    · right
      have hbeq : (e0.1 == k) = false := beq_eq_false_iff_ne.mpr h0
      rw [← hEq]
      simpa [hbeq] using he0
  · rcases List.mem_append.mp he with h | h
    · right; exact h
    · left; simpa using h

theorem dictUpd_hasKey {α : Type} (k : String) (v : α) (d : List (String × α)) :
    (dictUpd k v d).any (fun e => e.1 == k) = true := by
  unfold dictUpd
  split
  · rename_i h
    rw [List.any_eq_true] at h ⊢
    rcases h with ⟨e, he, hk⟩
    exact ⟨(k, v), List.mem_map.mpr ⟨e, he, by simp [hk]⟩, by simp⟩
  · rw [List.any_eq_true]
    exact ⟨(k, v), List.mem_append.mpr (.inr (by simp)), by simp⟩

theorem dictUpd_keeps_key {α : Type} {k' : String} (k : String) (v : α)
    {d : List (String × α)} (h : d.any (fun e => e.1 == k') = true) :
    (dictUpd k v d).any (fun e => e.1 == k') = true := by
  unfold dictUpd
  rw [List.any_eq_true] at h
  rcases h with ⟨e, he, hk⟩
  split
  · rw [List.any_eq_true]
    by_cases hek : e.1 = k
    · refine ⟨(k, v), List.mem_map.mpr ⟨e, he, by simp [hek]⟩, ?_⟩
      simp only [beq_iff_eq] at hk ⊢
      rw [← hek]
      exact hk
    · exact ⟨e, List.mem_map.mpr ⟨e, he, by simp [beq_eq_false_iff_ne.mpr hek]⟩, hk⟩
  · rw [List.any_eq_true]
    exact ⟨e, List.mem_append.mpr (.inl he), hk⟩

theorem lookup_isSome_of_hasKey {α : Type} {k : String} :
    ∀ {l : List (String × α)}, l.any (fun e => e.1 == k) = true →
      ∃ v, l.lookup k = some v := by
  intro l
  induction l with
  | nil => intro h; exact absurd h (by simp)
  | cons e l ih =>
    intro h
    obtain ⟨a, b⟩ := e
    by_cases hk : k = a
    · subst hk
      exact ⟨b, by simp [List.lookup]⟩
    · have hbeq : (k == a) = false := beq_eq_false_iff_ne.mpr hk
      simp only [List.lookup, hbeq]
      apply ih
      rw [List.any_cons] at h
      have : (a == k) = false := beq_eq_false_iff_ne.mpr fun hEq => hk hEq.symm
      simpa [this] using h

theorem foldl_dictUpd_mem {α : Type} {Q : String × α → Prop} :
    ∀ (pairs acc : List (String × α)),
      (∀ e ∈ acc, Q e) → (∀ p ∈ pairs, Q p) →
      ∀ e ∈ pairs.foldl (fun d p => dictUpd p.1 p.2 d) acc, Q e := by
  intro pairs
  induction pairs with
  | nil => intro acc hacc _ e he; exact hacc e he
  | cons p ps ih =>
    intro acc hacc hp e he
    rw [List.foldl_cons] at he
    refine ih (dictUpd p.1 p.2 acc) ?_ (fun q hq => hp q (List.mem_cons_of_mem p hq)) e he
    intro e' he'
    rcases dictUpd_mem he' with h | h
    · rw [h]; exact hp p (List.mem_cons_self p ps)
    · exact hacc e' h

theorem foldl_dictUpd_hasKey {α : Type} {k : String} :
    ∀ (pairs acc : List (String × α)),
      (k ∈ pairs.map Prod.fst ∨ acc.any (fun e => e.1 == k) = true) →
      (pairs.foldl (fun d p => dictUpd p.1 p.2 d) acc).any (fun e => e.1 == k) = true := by
  intro pairs
  induction pairs with
  | nil =>
    intro acc h
    rcases h with h | h
    · exact absurd h (by simp)
    · exact h
  | cons p ps ih =>
    intro acc h
    rw [List.foldl_cons]
    apply ih
    rcases h with h | h
    · rw [List.map_cons] at h
      rcases List.mem_cons.mp h with hk | hk
      · right
        subst hk
        exact dictUpd_hasKey p.1 p.2 acc
      · left; exact hk
    · right
      exact dictUpd_keeps_key p.1 p.2 h

theorem foldl_dictUpd_nodup {α : Type} :
    ∀ (pairs acc : List (String × α)),
      (pairs.map Prod.fst).Nodup →
      (∀ p ∈ pairs, acc.any (fun e => e.1 == p.1) = false) →
      pairs.foldl (fun d p => dictUpd p.1 p.2 d) acc = acc ++ pairs := by
  intro pairs
  induction pairs with
  | nil => intro acc _ _; simp
  | cons p ps ih =>
    intro acc hnd hdisj
    rw [List.map_cons, List.nodup_cons] at hnd
    rw [List.foldl_cons]
    have hupd : dictUpd p.1 p.2 acc = acc ++ [p] := by
      unfold dictUpd
      rw [if_neg (by
        rw [hdisj p (List.mem_cons_self p ps)]
        exact Bool.false_ne_true)]
    rw [hupd, ih (acc ++ [p]) hnd.2 ?hq]
    · rw [List.append_assoc]
      rfl
    case hq =>
      intro q hq
      rw [List.any_append, Bool.or_eq_false_iff]
      refine ⟨hdisj q (List.mem_cons_of_mem p hq), ?_⟩
      simp only [List.any_cons, List.any_nil, Bool.or_false, beq_iff_eq]
      exact decide_eq_false fun hEq =>
        hnd.1 (hEq ▸ List.mem_map_of_mem Prod.fst hq)

/-! ## Lemmas about the result-collection comprehension -/

theorem collectResults_length {f : String → Except PyErr (String × Outcome)} :
    ∀ {l : List String} {out : List (String × Outcome)},
      collectResults f l = .ok out → out.length = l.length := by
  intro l
  induction l with
  | nil =>
    intro out h
    simp only [collectResults] at h
    cases h
    rfl
  | cons fn rest ih =>
    intro out h
    simp only [collectResults] at h
    rcases hf : f fn with e | r <;> rw [hf] at h
    · exact absurd h (by simp)
    · rcases hrec : collectResults f rest with e | rs <;> rw [hrec] at h
      · exact absurd h (by simp)
      · cases h
        simp [ih hrec]

theorem collectResults_zip {f : String → Except PyErr (String × Outcome)} :
    ∀ {l : List String} {out : List (String × Outcome)},
      collectResults f l = .ok out →
      ∀ e ∈ l.zip out, f e.1 = .ok e.2 := by
  intro l
  induction l with
  | nil => intro out _ e he; exact absurd he (by simp)
  | cons fn rest ih =>
    intro out h e he
    simp only [collectResults] at h
    rcases hf : f fn with e0 | r <;> rw [hf] at h
    · exact absurd h (by simp)
    · rcases hrec : collectResults f rest with e0 | rs <;> rw [hrec] at h
      · exact absurd h (by simp)
      · cases h
        rcases List.mem_cons.mp (by simpa using he) with hEq | hmem
        · rw [hEq]
          exact hf
        · exact ih hrec e hmem

/-! ## Image lemmas -/

theorem bgr2gray_diag (v : Nat) : bgr2gray (v, v, v) = v := by
  unfold bgr2gray
  simp only
  have h : 1868 * v + 9617 * v + 4899 * v + 8192 = 16384 * v + 8192 := by ring
  rw [h]
  omega

theorem threshBinaryInv_flip (x : Nat) :
    threshBinaryInv 150 255 (threshBinaryInv 150 255 x) =
      255 - threshBinaryInv 150 255 x := by
  unfold threshBinaryInv
  split <;> norm_num

/-! ## Destructuring a successful upload -/

theorem upload_ok_inv {ocr : GrayImage → List Nat} {rules : List RulePat}
    {uuids : Nat → String} {files : List UploadedFile}
    {resp : List (String × Outcome)} {saved : List (String × Option Image)}
    (h : upload ocr rules uuids (some files) = (.ok (.fieldsResp resp), saved)) :
    ∃ fl, collectResults
        (fun fn => process_file ocr rules (fsOf (savedOf uuids files))
          (joinPath UPLOAD_FOLDER fn)) (genFilenames uuids files) = .ok fl ∧
      resp = buildResp ((genFilenames uuids files).zip (fl.map Prod.snd)) ∧
      saved = savedOf uuids files := by
  simp only [upload] at h
  split at h
  · simp at h
  · split at h
    · simp at h
    · split at h
      · simp at h
      · rename_i fl hfl
        simp only [Prod.mk.injEq] at h
        obtain ⟨h1, h2⟩ := h
        have h1' : buildResp ((genFilenames uuids files).zip (fl.map Prod.snd)) = resp := by
          have := h1
          simp only [Except.ok.injEq, UploadResult.fieldsResp.injEq] at this
          exact this
        exact ⟨fl, hfl, h1'.symm, h2.symm⟩

/-! ## Facts about the configured rule set -/

theorem patterns_grp_isSome : ∀ r ∈ patternsList, r.grp.isSome := by
  intro r hr
  fin_cases hr <;> rfl

theorem patterns_names_nodup : (patternsList.map RulePat.name).Nodup := by decide

theorem patterns_CI : ∀ r ∈ patternsList,
    (∀ t ∈ r.pre, TokCI t) ∧ (∀ cls, r.grp = some cls → ClsInv cls) := by
  intro r hr
  fin_cases hr <;> constructor
  all_goals
    first
      | (intro t ht
         simp only [prRule, techRule, vnameRule, vpayRule, vdelivRule, costRule, budgetRule,
           List.mem_cons, List.not_mem_nil, or_false] at ht
         rcases ht with h | h <;> subst h <;> first | trivial | exact isSpaceN_inv)
      | (intro cls hcls
         simp only [prRule, techRule, vnameRule, vpayRule, vdelivRule, costRule, budgetRule,
           Option.some.injEq] at hcls
         subst hcls
         first
           | exact isDigitN_inv
           | exact clsTech_inv
           | exact isAlphaN_inv
           | exact clsDeliv_inv)

/-! ## Concrete inputs used by the closed evidence and witness theorems -/

/-- A deterministic stand-in for the OCR engine: every image reads as the
text `PR Number 7`, which matches exactly one configured rule. -/
def ocrStub : GrayImage → List Nat := fun _ => strN "PR Number 7"

/-- A valid decodable 1x1 image. -/
def imgOK : Image := [[(0, 0, 0)]]

/-- A deterministic supply of generated unique names: 0, 1, 2, ... -/
def uuidsStub : Nat → String := fun i => toString i

/-- An upload whose bytes decode fine. -/
def fileValid : UploadedFile := ⟨"b.png", 100, some imgOK⟩

/-- An upload whose bytes `cv2.imread` cannot decode (`imread` gives `None`). -/
def fileCorrupt : UploadedFile := ⟨"a.png", 100, none⟩

/-- Two valid uploads, used by the batch-shaped witnesses. -/
def filesTwo : List UploadedFile := [⟨"a.png", 1, some imgOK⟩, ⟨"b.png", 2, some imgOK⟩]

/-- The response `upload` produces for `filesTwo` under `ocrStub`/`uuidsStub`. -/
def respTwo : List (String × Outcome) :=
  [("0.png", .fields [("PR Number", strN "7")]), ("1.png", .fields [("PR Number", strN "7")])]

/-- A rule whose pattern string has zero capture groups, as in
`r"Vendor Name\s*"`; nothing in the repository validates rules, so this
reaches the extraction loop unchanged. -/
def noGroupRule : RulePat := ⟨"Vendor Name", [.lit (strN "Vendor Name"), .star isSpaceN], none⟩

/-- An OCR stub whose text matches `noGroupRule`. -/
def ocrVendor : GrayImage → List Nat := fun _ => strN "Vendor Name Acme"

/-! ## Claim theorems -/

/-- C7: the captured value `"  Acme   Corp\n"` (two leading spaces, three
interior spaces, trailing newline) is stored as exactly `"Acme Corp"`:
`clean_text` collapses all whitespace runs, newlines included, to single
spaces and trims both ends. -/
theorem clean_text_example : clean_text (strN "  Acme   Corp\n") = strN "Acme Corp" := by
  decide

/-- C5, counterexample: re-normalizing an already-normalized image is not a
no-op on pixel values.  A pixel of gray value 200 binarizes (inverted, at
threshold 150) to 0; feeding the resulting one-pixel image back through the
preprocessing yields 255, not 0, because `THRESH_BINARY_INV` maps 0 (which
is not above 150) to 255. -/
theorem renormalize_not_identity :
    normalizeImage (grayAsBGR (normalizeImage [[(200, 200, 200)]])) ≠
      normalizeImage [[(200, 200, 200)]] := by
  decide

/-- C5, amended: the inverted-polarity binarization is an involution on its
own range rather than idempotent — normalizing an already-normalized image
inverts every pixel (0 becomes 255 and 255 becomes 0). -/
theorem renormalize_inverts_pixels (img : Image) :
    normalizeImage (grayAsBGR (normalizeImage img)) =
      (normalizeImage img).map (List.map fun v => 255 - v) := by
  unfold normalizeImage grayAsBGR
  simp only [List.map_map]
  apply List.map_congr_left
  intro row _
  simp only [Function.comp_apply, List.map_map]
  apply List.map_congr_left
  intro p _
  simp only [Function.comp_apply]
  rw [bgr2gray_diag]
  exact threshBinaryInv_flip (bgr2gray p)

/-- C8: nothing fails at rule-set definition time.  A pattern with zero
capture groups is only discovered when a document's text first matches it:
`match.group(1)` then raises `IndexError` inside `process_file`, aborting
the running batch — not an `InvalidRuleError` at load time. -/
theorem malformed_rule_aborts_mid_batch :
    extractFieldsE [noGroupRule] (strN "Vendor Name Acme") = .error .indexError ∧
    (upload ocrVendor [noGroupRule] uuidsStub (some [fileValid])).1 = .error .indexError := by
  constructor
  · decide
  · decide

/-- C1: the batch call does not isolate a per-document failure.  In a batch
where the first document is valid (and alone would extract a correct field
map, first conjunct) and the second has undecodable bytes, the worker's
`cv2.cvtColor` exception is re-raised by `result.get()` and the whole
`upload` call aborts instead of returning a `BatchResult` (second
conjunct). -/
theorem batch_abort_on_corrupt_document :
    process_file ocrStub patternsList (fsOf (savedOf uuidsStub [fileValid, fileCorrupt]))
        (joinPath UPLOAD_FOLDER "0.png") =
      .ok ("0.png", .fields [("PR Number", strN "7")]) ∧
    (upload ocrStub patternsList uuidsStub (some [fileValid, fileCorrupt])).1 =
      .error .cvtColorError := by
  constructor
  · decide
  · decide

/-- C2: for every raw text and every configured rule, the extraction loop
stores under the rule's name exactly the cleaned first capture group of the
leftmost match, and nothing when there is no match (first conjunct); the
reported match is leftmost — the pattern matches at the reported offset and
at no earlier one (second conjunct); and the search is case-insensitive —
lowering the text never changes whether or where the rule matches (third
conjunct). -/
theorem extract_rule_semantics (text : List Nat) (r : RulePat) (hr : r ∈ patternsList) :
    (∃ m, extractFieldsE patternsList text = .ok m ∧
      m.lookup r.name = matchedValue r text) ∧
    (∀ (i : Nat) (g : Option (List Nat)), reSearch r text = some (i, g) →
      matchAt r (text.drop i) = some g ∧ ∀ j, j < i → matchAt r (text.drop j) = none) ∧
    (reSearch r (text.map lowerN)).map Prod.fst = (reSearch r text).map Prod.fst := by
  refine ⟨?_, ?_, ?_⟩
  · exact ⟨collectFields patternsList text,
      extractFieldsE_eq patterns_grp_isSome patterns_names_nodup,
      lookup_collectFields patterns_names_nodup hr⟩
  · intro i g hs
    exact reSearch_leftmost r text i g hs
  · exact reSearch_lower (patterns_CI r hr).1 (patterns_CI r hr).2 text

/-- Witness for C2 at the rule `PR Number` and the text `PR Number 7`. -/
theorem extract_rule_semantics_witness :
    (reSearch prRule ((strN "PR Number 7").map lowerN)).map Prod.fst =
      (reSearch prRule (strN "PR Number 7")).map Prod.fst :=
  (extract_rule_semantics (strN "PR Number 7") prRule
    (List.mem_cons_self prRule _)).2.2

/-- C3: the extraction outcome on the configured rule set is a closed
two-variant result.  When no rule matches, the outcome is exactly the
sentinel `'Not an Invoice Image'`; when at least one rule matches, the
outcome is the accumulated nonempty fields dict — a single entry suffices,
and an empty dict is never returned as a fields outcome. -/
theorem extraction_outcome_two_variant (text : List Nat) :
    ((∀ r ∈ patternsList, reSearch r text = none) →
      processText patternsList text = .ok .notInvoice) ∧
    ((∃ r ∈ patternsList, (reSearch r text).isSome) →
      ∃ m, m ≠ [] ∧ processText patternsList text = .ok (.fields m)) := by
  constructor
  · intro hnone
    have hnil : collectFields patternsList text = [] := by
      unfold collectFields
      rw [List.filterMap_eq_nil_iff]
      intro r hr
      unfold matchedValue
      rw [hnone r hr]
      rfl
    unfold processText
    rw [extractFieldsE_eq patterns_grp_isSome patterns_names_nodup, hnil]
    rfl
  · intro hsome
    rcases hsome with ⟨r, hr, hsome⟩
    rcases Option.isSome_iff_exists.mp hsome with ⟨⟨i, g⟩, hs⟩
    have hg := reSearch_grp_isSome (patterns_grp_isSome r hr) text i g hs
    rcases Option.isSome_iff_exists.mp hg with ⟨cap, hcap⟩
    subst hcap
    have hmv : matchedValue r text = some (clean_text cap) := by
      unfold matchedValue
      rw [hs]
    have hmem : (r.name, clean_text cap) ∈ collectFields patternsList text := by
      unfold collectFields
      exact List.mem_filterMap.mpr ⟨r, hr, by rw [hmv]; rfl⟩
    have hne : collectFields patternsList text ≠ [] := by
      intro hnil
      rw [hnil] at hmem
      exact absurd hmem (List.not_mem_nil _)
    refine ⟨collectFields patternsList text, hne, ?_⟩
    simp only [processText, extractFieldsE_eq patterns_grp_isSome patterns_names_nodup]
    rw [if_neg (by simpa [List.isEmpty_iff] using hne)]

/-- Witness for C3: the text `no relevant content` matches no rule and
yields the sentinel; the text `PR Number 7` matches one rule and yields a
nonempty fields dict. -/
theorem extraction_outcome_two_variant_witness :
    processText patternsList (strN "no relevant content") = .ok .notInvoice ∧
    ∃ m, m ≠ [] ∧ processText patternsList (strN "PR Number 7") = .ok (.fields m) :=
  ⟨(extraction_outcome_two_variant (strN "no relevant content")).1 (by decide),
   (extraction_outcome_two_variant (strN "PR Number 7")).2 (by decide)⟩

/-- C6: the preprocessing converts each BGR pixel to its single-channel
gray value and binarizes it at the fixed threshold 150 with inverted
polarity, keeping the spatial dimensions (same number of rows, each row the
same length), producing only the two values 0 and 255, with the pixel at
any position determined by whether its gray value exceeds 150 — a pure
function, hence deterministic and free of side effects. -/
theorem preprocess_spec (img : Image) :
    (normalizeImage img).length = img.length ∧
    (∀ i : Nat, ((normalizeImage img)[i]?.map List.length) = (img[i]?.map List.length)) ∧
    (∀ row ∈ normalizeImage img, ∀ v ∈ row, v = 0 ∨ v = 255) ∧
    (∀ (i j : Nat) (p : Nat × Nat × Nat), (img[i]?.bind fun row => row[j]?) = some p →
      ((normalizeImage img)[i]?.bind fun row => row[j]?) =
        some (if 150 < bgr2gray p then 0 else 255)) := by
  refine ⟨?_, ?_, ?_, ?_⟩
  · unfold normalizeImage
    exact List.length_map img _
  · intro i
    unfold normalizeImage
    rw [List.getElem?_map]
    cases img[i]? with
    | none => rfl
    | some row =>
      show some (List.length (row.map fun p => threshBinaryInv 150 255 (bgr2gray p))) =
        some row.length
      rw [List.length_map]
  · intro row hrow v hv
    unfold normalizeImage at hrow
    rcases List.mem_map.mp hrow with ⟨row0, _, hrow0⟩
    rw [← hrow0] at hv
    rcases List.mem_map.mp hv with ⟨p, _, hp⟩
    rw [← hp]
    unfold threshBinaryInv
    split
    · left; rfl
    · right; rfl
  · intro i j p hp
    unfold normalizeImage
    rw [List.getElem?_map]
    cases hrow : img[i]? with
    | none =>
      rw [hrow] at hp
      exact absurd hp (by simp)
    | some row =>
      rw [hrow] at hp
      simp only [Option.some_bind] at hp
      show (row.map fun q => threshBinaryInv 150 255 (bgr2gray q))[j]? = _
      rw [List.getElem?_map, hp]
      rfl

/-- Witness for C6 on a 1x2 image: the row count is preserved and the pixel
with gray value 160 (above the threshold) becomes 0. -/
theorem preprocess_spec_witness :
    (normalizeImage [[(0, 0, 0), (160, 160, 160)]]).length =
      ([[(0, 0, 0), (160, 160, 160)]] : Image).length ∧
    ((normalizeImage [[(0, 0, 0), (160, 160, 160)]])[0]?.bind fun row => row[1]?) =
      some (if 150 < bgr2gray (160, 160, 160) then 0 else 255) :=
  ⟨(preprocess_spec [[(0, 0, 0), (160, 160, 160)]]).1,
   (preprocess_spec [[(0, 0, 0), (160, 160, 160)]]).2.2.2 0 1 (160, 160, 160) (by decide)⟩

/-- Whether the handler's reply is the `{'error': ...}` JSON object. -/
def isErrorResp : Except PyErr UploadResult → Bool
  | .ok (.errorResp _) => true
  | _ => false

theorem firstInvalid_some :
    ∀ {files : List UploadedFile},
      (∃ f ∈ files, ¬(is_image_file f.filename = true ∧
        f.contentLength ≤ MAX_CONTENT_LENGTH)) →
      ∃ msg, firstInvalid files = some msg := by
  intro files
  induction files with
  | nil =>
    intro h
    rcases h with ⟨f, hf, _⟩
    exact absurd hf (List.not_mem_nil f)
  | cons f fs ih =>
    intro hbad
    unfold firstInvalid
    by_cases h1 : is_image_file f.filename = true
    · rw [if_neg (by simp [h1])]
      by_cases h2 : f.contentLength > MAX_CONTENT_LENGTH
      · rw [if_pos h2]
        exact ⟨_, rfl⟩
      · rw [if_neg h2]
        apply ih
        rcases hbad with ⟨g, hg, hgbad⟩
        rcases List.mem_cons.mp hg with hEq | hmem
        · exact absurd ⟨h1, Nat.le_of_not_lt h2⟩ (hEq ▸ hgbad)
        · exact ⟨g, hmem, hgbad⟩
    · rw [if_pos (by simp [h1])]
      exact ⟨_, rfl⟩

/-- C9: upload validation is all-or-nothing.  If any submitted file fails
the image-extension check or the per-file size check, the handler replies
with an `{'error': ...}` object, and the upload folder stays empty — no
file of the batch is saved and no document is processed. -/
theorem upload_validation_atomic (ocr : GrayImage → List Nat) (rules : List RulePat)
    (uuids : Nat → String) (files : List UploadedFile)
    (hbad : ∃ f ∈ files, ¬(is_image_file f.filename = true ∧
      f.contentLength ≤ MAX_CONTENT_LENGTH)) :
    isErrorResp (upload ocr rules uuids (some files)).1 = true ∧
    (upload ocr rules uuids (some files)).2 = [] := by
  by_cases hlen : files.length > MAX_FILES
  · have hu : upload ocr rules uuids (some files) =
        (.ok (.errorResp "Maximum 10 files are allowed at a time"), []) := by
      simp only [upload]
      rw [if_pos hlen]
    rw [hu]
    exact ⟨rfl, rfl⟩
  · rcases firstInvalid_some hbad with ⟨msg, hmsg⟩
    have hu : upload ocr rules uuids (some files) = (.ok (.errorResp msg), []) := by
      simp only [upload]
      rw [if_neg hlen, hmsg]
    rw [hu]
    exact ⟨rfl, rfl⟩

/-- Witness for C9: a batch containing the non-image file `a.txt` is
rejected with an error reply and nothing is written. -/
theorem upload_validation_atomic_witness :
    isErrorResp (upload ocrStub patternsList uuidsStub
      (some [⟨"a.txt", 0, none⟩])).1 = true ∧
    (upload ocrStub patternsList uuidsStub (some [⟨"a.txt", 0, none⟩])).2 = [] :=
  upload_validation_atomic ocrStub patternsList uuidsStub [⟨"a.txt", 0, none⟩]
    ⟨⟨"a.txt", 0, none⟩, List.mem_cons_self _ _, by decide⟩

/-- C4: when a batch returns a `BatchResult` and the generated identifiers
are pairwise distinct, the result has exactly one entry per submitted
document — its keys are exactly the identifiers, in particular there are
as many entries as documents, none missing and none duplicated. -/
theorem batch_result_completeness {ocr : GrayImage → List Nat} {rules : List RulePat}
    {uuids : Nat → String} {files : List UploadedFile}
    {resp : List (String × Outcome)} {saved : List (String × Option Image)}
    (h : upload ocr rules uuids (some files) = (.ok (.fieldsResp resp), saved))
    (hnd : (genFilenames uuids files).Nodup) :
    resp.map Prod.fst = genFilenames uuids files ∧ resp.length = files.length := by
  rcases upload_ok_inv h with ⟨fl, hfl, hresp, _⟩
  have hlen : fl.length = (genFilenames uuids files).length := collectResults_length hfl
  have hkeys : ((genFilenames uuids files).zip (fl.map Prod.snd)).map Prod.fst =
      genFilenames uuids files :=
    List.map_fst_zip _ _ (by rw [List.length_map, hlen])
  have hbuild : buildResp ((genFilenames uuids files).zip (fl.map Prod.snd)) =
      (genFilenames uuids files).zip (fl.map Prod.snd) := by
    unfold buildResp
    rw [foldl_dictUpd_nodup _ [] (by rw [hkeys]; exact hnd) (fun _ _ => rfl)]
    rfl
  have hfileslen : (genFilenames uuids files).length = files.length := by
    unfold genFilenames
    rw [List.length_map, List.enum_length]
  constructor
  · rw [hresp, hbuild, hkeys]
  · rw [hresp, hbuild, List.length_zip, List.length_map, hlen, hfileslen]
    exact Nat.min_self _

/-- Witness for C4 on a concrete two-document batch. -/
theorem batch_result_completeness_witness :
    respTwo.map Prod.fst = genFilenames uuidsStub filesTwo ∧
    respTwo.length = filesTwo.length :=
  @batch_result_completeness ocrStub patternsList uuidsStub filesTwo respTwo
    (savedOf uuidsStub filesTwo) (by decide) (by decide)

/-- C10: the identifier `process_file` returns is always the basename of
the path it was invoked on (first conjunct), and the handler pairs results
with the generated filenames positionally, so the aggregate maps each
generated filename to exactly the outcome `process_file` computes for that
file's saved path (second conjunct). -/
theorem aggregation_positional_consistency {ocr : GrayImage → List Nat}
    {rules : List RulePat} {uuids : Nat → String} {files : List UploadedFile}
    {resp : List (String × Outcome)} {saved : List (String × Option Image)}
    (h : upload ocr rules uuids (some files) = (.ok (.fieldsResp resp), saved)) :
    (∀ (fs : String → Option Image) (path ident : String) (o : Outcome),
      process_file ocr rules fs path = .ok (ident, o) → ident = basename path) ∧
    (∀ (i : Nat) (hi : i < (genFilenames uuids files).length),
      ∃ o : Outcome,
        process_file ocr rules (fsOf (savedOf uuids files))
            (joinPath UPLOAD_FOLDER ((genFilenames uuids files).get ⟨i, hi⟩)) =
          .ok (basename (joinPath UPLOAD_FOLDER ((genFilenames uuids files).get ⟨i, hi⟩)), o) ∧
        resp.lookup ((genFilenames uuids files).get ⟨i, hi⟩) = some o) := by
  have hpart1 : ∀ (fs : String → Option Image) (path ident : String) (o : Outcome),
      process_file ocr rules fs path = .ok (ident, o) → ident = basename path := by
    intro fs path ident o hpf
    simp only [process_file] at hpf
    split at hpf
    · exact absurd hpf (by simp)
    · split at hpf
      · exact absurd hpf (by simp)
      · simp only [Except.ok.injEq, Prod.mk.injEq] at hpf
        exact hpf.1.symm
  refine ⟨hpart1, ?_⟩
  rcases upload_ok_inv h with ⟨fl, hfl, hresp, _⟩
  have hlen : fl.length = (genFilenames uuids files).length := collectResults_length hfl
  intro i hi
  have hQ : ∀ e ∈ resp, ∃ ident : String,
      process_file ocr rules (fsOf (savedOf uuids files))
        (joinPath UPLOAD_FOLDER e.1) = .ok (ident, e.2) := by
    rw [hresp]
    unfold buildResp
    intro e he
    refine @foldl_dictUpd_mem Outcome
      (fun e => ∃ ident : String,
        process_file ocr rules (fsOf (savedOf uuids files))
          (joinPath UPLOAD_FOLDER e.1) = .ok (ident, e.2))
      _ [] (fun e' he' => absurd he' (List.not_mem_nil e')) ?_ e he
    intro p hp
    rw [List.zip_map_right] at hp
    rcases List.mem_map.mp hp with ⟨q, hq, hpq⟩
    have hfq := collectResults_zip hfl q hq
    rw [← hpq]
    exact ⟨q.2.1, hfq⟩
  have hhas : resp.any (fun e => e.1 == (genFilenames uuids files).get ⟨i, hi⟩) = true := by
    rw [hresp]
    unfold buildResp
    apply foldl_dictUpd_hasKey
    left
    have hmapfst : (((genFilenames uuids files).zip (fl.map Prod.snd)).map Prod.fst) =
        genFilenames uuids files :=
      List.map_fst_zip _ _ (by rw [List.length_map, hlen])
    rw [hmapfst]
    exact List.get_mem _ _ _
  rcases lookup_isSome_of_hasKey hhas with ⟨v, hv⟩
  have hmem := lookup_mem hv
  rcases hQ _ hmem with ⟨ident, hident⟩
  refine ⟨v, ?_, hv⟩
  rw [hpart1 _ _ _ _ hident] at hident
  exact hident

/-- Witness for C10 at the first document of a concrete two-document batch. -/
theorem aggregation_positional_consistency_witness :
    ("0.png" : String) = basename (joinPath UPLOAD_FOLDER "0.png") ∧
    ∃ o : Outcome,
      process_file ocrStub patternsList (fsOf (savedOf uuidsStub filesTwo))
          (joinPath UPLOAD_FOLDER ((genFilenames uuidsStub filesTwo).get ⟨0, by decide⟩)) =
        .ok (basename (joinPath UPLOAD_FOLDER
          ((genFilenames uuidsStub filesTwo).get ⟨0, by decide⟩)), o) ∧
      respTwo.lookup ((genFilenames uuidsStub filesTwo).get ⟨0, by decide⟩) = some o := by
  have h := @aggregation_positional_consistency ocrStub patternsList uuidsStub filesTwo
    respTwo (savedOf uuidsStub filesTwo) (by decide)
  exact ⟨h.1 (fsOf (savedOf uuidsStub filesTwo)) (joinPath UPLOAD_FOLDER "0.png") "0.png"
    (.fields [("PR Number", strN "7")]) (by decide), h.2 0 (by decide)⟩

end TesserXtract
